import Mathlib

/-!
# Verification of the SIL basic-block core (SILBasicBlock.h)

A shallow embedding of `swift::SILBasicBlock` and its collaborators
(`SILSuccessor` edges, terminator instructions, block arguments), together
with proofs of the structural contracts stated for the block abstraction.

Blocks, instructions and successor edges are identified by natural-number
ids (`bid`, `iid`, `eid`); pointer dereference becomes lookup by id.
Operations whose C++ counterpart can fail an assertion (or hit undefined
behavior) are embedded as `Option`-returning functions, `none` marking the
precondition-violation branch.
-/

namespace SIL

/-- A `SILSuccessor`: one directed control-flow edge, owned by a terminator
instruction, pointing at the target block (`target` is the target's `bid`).
Edge identity (`eid`) models C++ object identity: two edges to the same
target are distinct. -/
structure SILSuccessor where
  eid : Nat
  target : Nat
deriving DecidableEq, Repr

/-- A `SILInstruction` as the block sees it: an opaque list element that
knows whether it is a terminator (`TermInst`) and, if so, owns its successor
edges (`getSuccessors`). -/
structure Inst where
  iid : Nat
  isTerm : Bool
  succEdges : List SILSuccessor
deriving DecidableEq, Repr

/-- A `SILBasicBlock`: a back-reference to the owning function (`parent`),
the `PredList` of inbound successor edges (held by `eid`; the edges
themselves live inside other blocks' terminators), the `BBArgList` of block
arguments (held by id), and the ordered `InstList`. -/
structure SILBasicBlock where
  bid : Nat
  parent : Nat
  predList : List Nat
  bbArgList : List Nat
  instList : List Inst
deriving DecidableEq, Repr

/-- A `SILFunction` as the owner of an ordered sequence of blocks. -/
structure SILFunction where
  blocks : List SILBasicBlock
deriving DecidableEq, Repr

/-! ## Instruction-list inspection -/

/-- `getTerminator()`: `assert(!InstList.empty())` then
`cast<TermInst>(&InstList.back())`.  `none` is the assertion-failure branch:
the list is empty, or the last instruction is not a terminator (the `cast`
would fail). -/
def getTerminator? (B : SILBasicBlock) : Option Inst :=
  match B.instList.getLast? with
  | none => none
  | some i => if i.isTerm then some i else none

/-- `empty()`: whether the instruction list is empty. -/
def instEmpty (B : SILBasicBlock) : Bool :=
  B.instList.isEmpty

/-- A block in the well-formed state: the instruction sequence is non-empty,
its last instruction is a terminator, and no earlier instruction is one. -/
def wellFormed (B : SILBasicBlock) : Prop :=
  B.instList.getLast?.map Inst.isTerm = some true ∧
    ∀ i ∈ B.instList.dropLast, i.isTerm = false

instance (B : SILBasicBlock) : Decidable (wellFormed B) := by
  unfold wellFormed; infer_instance

/-! ## Successor queries (all via `getTerminator`) -/

/-- `getSuccs()`: `getTerminator()->getSuccessors()`. -/
def getSuccs? (B : SILBasicBlock) : Option (List SILSuccessor) :=
  (getTerminator? B).map Inst.succEdges

/-- `succ_empty()`: `getSuccs().empty()`. -/
def succEmpty? (B : SILBasicBlock) : Option Bool :=
  (getSuccs? B).map List.isEmpty

/-- `succ_begin()` up to `succ_end()`: the successor-edge traversal, which
also goes through `getTerminator()`. -/
def succBegin? (B : SILBasicBlock) : Option (List SILSuccessor) :=
  getSuccs? B

/-- `getSingleSuccessor()`:
`if (succ_empty() || std::next(succ_begin()) != succ_end()) return 0;
 return *succ_begin();`.
The outer `Option` is the `getTerminator` precondition; the inner one is the
returned pointer (`none` = null), a successor's dereference being its target
block. -/
def getSingleSuccessor? (B : SILBasicBlock) : Option (Option Nat) :=
  (getSuccs? B).map fun s =>
    if s.isEmpty || !(s.drop 1).isEmpty then none
    else s.head?.map SILSuccessor.target

/-! ## Predecessor queries (via `PredList` only) -/

/-- `pred_empty()`: `PredList == nullptr`. -/
def predEmpty (B : SILBasicBlock) : Bool :=
  B.predList.isEmpty

/-- The traversal `pred_begin()` .. `pred_end()`: the chain of
`SILSuccessor` nodes threaded through this block, as their edge ids. -/
def predBegin (B : SILBasicBlock) : List Nat :=
  B.predList

/-- `getSinglePredecessor()` up to dereference:
`if (pred_empty() || std::next(pred_begin()) != pred_end()) return 0;
 return *pred_begin();` — this selects the unique inbound edge if there is
exactly one. -/
def getSinglePredecessorEid (B : SILBasicBlock) : Option Nat :=
  if B.predList.isEmpty || !(B.predList.drop 1).isEmpty then none
  else B.predList.head?

/-- Whether block `B` owns the edge `x`: some instruction of `B` holds a
successor edge with that id. -/
def ownsEdge (B : SILBasicBlock) (x : Nat) : Bool :=
  B.instList.any fun i => i.succEdges.any fun e => e.eid = x

/-- Dereferencing a predecessor iterator: a `SILSuccessor` resolves to the
block containing its owning terminator (`ContainingInst->getParent()`). -/
def edgeOwner (f : SILFunction) (x : Nat) : Option Nat :=
  (f.blocks.find? fun B => ownsEdge B x).map SILBasicBlock.bid

/-- `getSinglePredecessor()` including the dereference to the predecessor
block, resolved against the owning function's graph. -/
def getSinglePredecessor (f : SILFunction) (B : SILBasicBlock) : Option Nat :=
  (getSinglePredecessorEid B).bind (edgeOwner f)

/-! ## Argument management -/

/-- `getNumBBArg()`: `BBArgList.size()`. -/
def getNumBBArg (B : SILBasicBlock) : Nat :=
  B.bbArgList.length

/-- `getBBArg(i)`: `BBArgList[i]`; `none` is the out-of-range branch
(undefined behavior in C++, an assertion in a checked configuration). -/
def getBBArg? (B : SILBasicBlock) (i : Nat) : Option Nat :=
  B.bbArgList.get? i

/-- `eraseArgument(idx)`: `BBArgList.erase(BBArgList.begin() + idx)` —
remove the element at position `idx`, shifting the rest down. -/
def eraseArgument (B : SILBasicBlock) (i : Nat) : SILBasicBlock :=
  { B with bbArgList := B.bbArgList.eraseIdx i }

/-- `eraseArgument(idx)` with its precondition made explicit: `none` is the
out-of-range branch (fatal in a checked build, undefined behavior
otherwise). -/
def eraseArgumentChecked? (B : SILBasicBlock) (i : Nat) : Option SILBasicBlock :=
  if i < B.bbArgList.length then some (eraseArgument B i) else none

/-- `addArgument(Arg)`: `BBArgList.push_back(Arg)`. -/
def addArgument (B : SILBasicBlock) (a : Nat) : SILBasicBlock :=
  { B with bbArgList := B.bbArgList ++ [a] }

/-- `dropAllArgs()`: `BBArgList.clear()`. -/
def dropAllArgs (B : SILBasicBlock) : SILBasicBlock :=
  { B with bbArgList := [] }

/-! ## The control-flow-edge graph as a whole -/

/-- All successor edges of the function: each terminator's edge set,
flattened in block and instruction order. -/
def cfgEdges (f : SILFunction) : List SILSuccessor :=
  f.blocks.flatMap fun B => B.instList.flatMap Inst.succEdges

/-- The function's edge ids are pairwise distinct (C++ object identity:
each `SILSuccessor` node is one object). -/
def eidsNodup (f : SILFunction) : Prop :=
  ((cfgEdges f).map SILSuccessor.eid).Nodup

instance (f : SILFunction) : Decidable (eidsNodup f) := by
  unfold eidsNodup; infer_instance

/-- Predecessor/successor duality: an edge id appears in a block's
predecessor traversal iff some terminator in the function owns an edge with
that id whose target is the block (stated with both inclusions bounded by
the finite graph, so it is decidable on concrete functions). -/
def predDuality (f : SILFunction) : Prop :=
  ∀ B ∈ f.blocks,
    (∀ x ∈ B.predList, ∃ e ∈ cfgEdges f, e.eid = x ∧ e.target = B.bid) ∧
    (∀ e ∈ cfgEdges f, e.target = B.bid → e.eid ∈ B.predList)

instance (f : SILFunction) : Decidable (predDuality f) := by
  unfold predDuality; infer_instance

/-- Lookup of an edge by id in the function's graph. -/
def findEdge (f : SILFunction) (x : Nat) : Option SILSuccessor :=
  (cfgEdges f).find? fun e => e.eid = x

/-- Modelled from the spec: rewriting the target stored in edge `x` to
`newT`, in place inside its owning terminator; every other edge is left
alone. -/
def retargetSucc (x newT : Nat) (e : SILSuccessor) : SILSuccessor :=
  if e.eid = x then { e with target := newT } else e

/-- Modelled from the spec: the effect of retargeting edge `x` (whose
current target is `oldT`) to `newT`, as seen by one block: the edge is
unlinked from the old target's predecessor list, linked (prepended) into
the new target's, and its stored target is rewritten inside whichever
terminator owns it. -/
def retargetBlock (x newT oldT : Nat) (B : SILBasicBlock) : SILBasicBlock :=
  { bid := B.bid, parent := B.parent,
    predList :=
      (if B.bid = newT then [x] else []) ++
        (if B.bid = oldT then B.predList.filter (fun y => y ≠ x)
         else B.predList),
    bbArgList := B.bbArgList,
    instList := B.instList.map fun i =>
      { i with succEdges := i.succEdges.map (retargetSucc x newT) } }

/-- Modelled from the spec: the `SILSuccessor` retargeting step, whose
implementation is not part of this fragment (the header only notes that
`PredList` "is automatically managed by the SILSuccessor class").  Per the
spec, retargeting an edge "unlinks from its current target's list first"
and then links the edge into the new target's predecessor list (prepend),
all within one mutation step. -/
def retargetEdge (f : SILFunction) (x newT : Nat) : SILFunction :=
  match findEdge f x with
  | none => f
  | some e => { blocks := f.blocks.map (retargetBlock x newT e.target) }

/-! ## Block splitting -/

/-- Modelled from the spec: the body of `splitBasicBlock(I)` is not part of
this fragment (the header carries only its declaration and contract).  Per
the spec, the new block receives everything from the split position onward
(splice, not copy), the original keeps the strict prefix and is left without
a terminator, and the new block starts with no arguments and no
predecessors.  The split position is the index `p` into the instruction
sequence; `nid` is the fresh block id. -/
def splitBlockAt (B : SILBasicBlock) (p : Nat) (nid : Nat) :
    SILBasicBlock × SILBasicBlock :=
  ({ B with instList := B.instList.take p },
   { bid := nid, parent := B.parent, predList := [], bbArgList := [],
     instList := B.instList.drop p })

/-- Modelled from the spec: `splitBasicBlock(I)` at the function level —
the new block is "inserted immediately after the original in the function's
block sequence"; all other blocks are untouched. -/
def splitBasicBlock (f : SILFunction) (bid p nid : Nat) : SILFunction :=
  { blocks := f.blocks.flatMap fun B =>
      if B.bid = bid
      then [(splitBlockAt B p nid).1, (splitBlockAt B p nid).2]
      else [B] }

/-- Modelled from the spec: `splitBasicBlockAndBranch(I, BranchLoc)` — the
same split, then an unconditional branch from the original block to the new
block is appended.  The branch is a fresh terminator (`biid`) owning one
fresh successor edge (`neid`) targeting the new block, and that edge is
linked into the new block's predecessor list. -/
def splitBasicBlockAndBranch (f : SILFunction) (bid p nid biid neid : Nat) :
    SILFunction :=
  { blocks := f.blocks.flatMap fun B =>
      if B.bid = bid then
        [{ B with instList :=
             B.instList.take p ++ [⟨biid, true, [⟨neid, nid⟩]⟩] },
         { bid := nid, parent := B.parent, predList := [neid],
           bbArgList := [], instList := B.instList.drop p }]
      else [B] }

/-! ## Concrete blocks and functions used to instantiate the theorems -/

/-- A non-terminator instruction (`x = const 1`). -/
def constInst1 : Inst := ⟨1, false, []⟩

/-- A second non-terminator instruction (`y = const 2`). -/
def constInst2 : Inst := ⟨2, false, []⟩

/-- A branch terminator owning one edge (id 100) targeting block 1. -/
def brInst : Inst := ⟨3, true, [⟨100, 1⟩]⟩

/-- A return terminator: no successor edges. -/
def retInst : Inst := ⟨4, true, []⟩

/-- Block 0: two constants then a branch to block 1. -/
def blk0 : SILBasicBlock := ⟨0, 0, [], [7, 8, 9], [constInst1, constInst2, brInst]⟩

/-- Block 1: a single return, one inbound edge (id 100, owned by `blk0`). -/
def blk1 : SILBasicBlock := ⟨1, 0, [100], [], [retInst]⟩

/-- A block still in the building state: no instructions yet. -/
def emptyBlk : SILBasicBlock := ⟨2, 0, [100, 101], [], []⟩

/-- A two-block function `blk0 → blk1`. -/
def fn01 : SILFunction := ⟨[blk0, blk1]⟩

/-! ## C5: getTerminator -/

/-- C5: `getTerminator()` returns a value iff the instruction sequence is
non-empty and its last instruction is a terminator, and then the value is
exactly the last element of the sequence; on a violating block the call
fails (the assertion or the `cast`), returning no value. -/
theorem getTerminator_is_last (B : SILBasicBlock) :
    ((getTerminator? B).isSome ↔
      B.instList.getLast?.map Inst.isTerm = some true) ∧
    (B.instList.getLast?.map Inst.isTerm = some true →
      getTerminator? B = B.instList.getLast?) := by
  unfold getTerminator?
  cases h : B.instList.getLast? with
  | none => simp
  | some i => by_cases ht : i.isTerm <;> simp [ht]

/-- C5 witness: on the concrete well-formed block `blk0`, `getTerminator`
returns the last instruction, the branch. -/
theorem getTerminator_is_last_witness :
    getTerminator? blk0 = blk0.instList.getLast? :=
  (getTerminator_is_last blk0).2 (by decide)

/-! ## C6: eraseArgument index shifting -/

/-- C6: `eraseArgument(i)` on arguments `[a0..an]` with `i` in range yields
`[a0..a(i-1), a(i+1)..an]`: the count drops by one, arguments before `i`
keep their index, and each argument after `i` moves to its old index minus
one. -/
theorem eraseArgument_shifts (B : SILBasicBlock) (i : Nat)
    (h : i < getNumBBArg B) :
    (eraseArgument B i).bbArgList =
      B.bbArgList.take i ++ B.bbArgList.drop (i + 1) ∧
    getNumBBArg (eraseArgument B i) = getNumBBArg B - 1 ∧
    (∀ j : Nat, j < i → getBBArg? (eraseArgument B i) j = getBBArg? B j) ∧
    (∀ j : Nat, i < j → j < getNumBBArg B →
      getBBArg? (eraseArgument B i) (j - 1) = getBBArg? B j) := by
  unfold getNumBBArg at *
  refine ⟨List.eraseIdx_eq_take_drop_succ _ _, List.length_eraseIdx_of_lt h,
    ?_, ?_⟩
  · intro j hj
    show (B.bbArgList.eraseIdx i).get? j = B.bbArgList.get? j
    have hj2 : j < (B.bbArgList.eraseIdx i).length := by
      rw [List.length_eraseIdx_of_lt h]; omega
    have hj3 : j < B.bbArgList.length := by omega
    rw [List.get?_eq_getElem? , List.get?_eq_getElem?,
      List.getElem?_eq_getElem hj2, List.getElem?_eq_getElem hj3,
      List.getElem_eraseIdx_of_lt B.bbArgList i j hj2 hj]
  · intro j hij hjn
    show (B.bbArgList.eraseIdx i).get? (j - 1) = B.bbArgList.get? j
    have hj2 : j - 1 < (B.bbArgList.eraseIdx i).length := by
      rw [List.length_eraseIdx_of_lt h]; omega
    have hje : j - 1 + 1 = j := by omega
    rw [List.get?_eq_getElem?, List.get?_eq_getElem?,
      List.getElem?_eq_getElem hj2, List.getElem?_eq_getElem hjn,
      List.getElem_eraseIdx_of_ge B.bbArgList i (j - 1) hj2 (by omega)]
    simp only [hje]

/-- C6 witness: erasing index 1 of `blk0`'s arguments `[7, 8, 9]` gives
`[7, 9]`, with index 0 unchanged and old index 2 now at index 1. -/
theorem eraseArgument_shifts_witness :
    (eraseArgument blk0 1).bbArgList =
      blk0.bbArgList.take 1 ++ blk0.bbArgList.drop 2 ∧
    getNumBBArg (eraseArgument blk0 1) = getNumBBArg blk0 - 1 ∧
    (∀ j : Nat, j < 1 → getBBArg? (eraseArgument blk0 1) j = getBBArg? blk0 j) ∧
    (∀ j : Nat, 1 < j → j < getNumBBArg blk0 →
      getBBArg? (eraseArgument blk0 1) (j - 1) = getBBArg? blk0 j) :=
  eraseArgument_shifts blk0 1 (by decide)

/-! ## C7: getSuccs and succ_empty -/

/-- C7: for a block whose `getTerminator()` succeeds, `getSuccs()` is
exactly the successor-edge set of the terminator, that terminator is the
last instruction, and `succ_empty()` holds iff the terminator has no
control-transfer targets. -/
theorem getSuccs_delegates (B : SILBasicBlock) (t : Inst)
    (h : getTerminator? B = some t) :
    B.instList.getLast? = some t ∧
    getSuccs? B = some t.succEdges ∧
    (succEmpty? B = some true ↔ t.succEdges = []) := by
  have hlast : B.instList.getLast? = some t := by
    unfold getTerminator? at h
    cases hl : B.instList.getLast? with
    | none => rw [hl] at h; exact absurd h (by simp)
    | some i =>
      rw [hl] at h
      by_cases ht : i.isTerm <;> simp [ht] at h
      rw [h]
  refine ⟨hlast, ?_, ?_⟩
  · simp [getSuccs?, h]
  · simp [succEmpty?, getSuccs?, h, List.isEmpty_iff]

/-- C7 witness: on `blk1` (a return block) the successor set is the
return's empty edge set and `succ_empty()` holds. -/
theorem getSuccs_delegates_witness :
    blk1.instList.getLast? = some retInst ∧
    getSuccs? blk1 = some retInst.succEdges ∧
    (succEmpty? blk1 = some true ↔ retInst.succEdges = []) :=
  getSuccs_delegates blk1 retInst (by decide)

/-! ## C8: argument-index precondition -/

/-- C8: `getBBArg(i)` and `eraseArgument(i)` reach their error branch
(assertion in a checked build, undefined behavior otherwise) exactly when
`i` is outside `[0, getNumBBArg())`; under the in-range precondition both
return a result. -/
theorem arg_index_range_check (B : SILBasicBlock) (i : Nat) :
    ((getBBArg? B i).isSome ↔ i < getNumBBArg B) ∧
    ((eraseArgumentChecked? B i).isSome ↔ i < getNumBBArg B) := by
  constructor
  · show (B.bbArgList.get? i).isSome = true ↔ i < B.bbArgList.length
    rw [List.get?_eq_getElem?]
    simp only [Option.isSome_iff_exists, List.getElem?_eq_some_iff]
    constructor
    · rintro ⟨a, h, _⟩; exact h
    · intro h; exact ⟨B.bbArgList[i], h, rfl⟩
  · unfold eraseArgumentChecked? getNumBBArg
    split <;> simp [*]

/-! ## C9: asymmetric preconditions of successor vs predecessor queries -/

/-- C9: every successor query goes through `getTerminator()` and therefore
fails on a block with an empty instruction list (even `succ_empty()`),
whereas the predecessor queries are total: on every block — the empty one
included — `pred_empty()` answers whether the predecessor list is empty and
`getSinglePredecessor`'s edge selection answers whether it has exactly one
entry. -/
theorem succ_pred_asymmetry (B : SILBasicBlock) :
    (B.instList = [] →
      getSuccs? B = none ∧ succEmpty? B = none ∧ succBegin? B = none ∧
      getSingleSuccessor? B = none ∧ getTerminator? B = none) ∧
    (predEmpty B = true ↔ B.predList = []) ∧
    ((getSinglePredecessorEid B).isSome ↔ B.predList.length = 1) := by
  refine ⟨?_, ?_, ?_⟩
  · intro h
    have ht : getTerminator? B = none := by
      unfold getTerminator?; rw [h]; rfl
    simp [getSuccs?, succEmpty?, succBegin?, getSingleSuccessor?, ht]
  · simp [predEmpty, List.isEmpty_iff]
  · unfold getSinglePredecessorEid
    cases h : B.predList with
    | nil => simp
    | cons x xs => cases xs <;> simp

/-- C9 witness: on the concrete instruction-less block `emptyBlk` all
successor queries fail while the predecessor queries answer (its two
inbound edges make `pred_empty` false and the single-predecessor test
fail). -/
theorem succ_pred_asymmetry_witness :
    (getSuccs? emptyBlk = none ∧ succEmpty? emptyBlk = none ∧
      succBegin? emptyBlk = none ∧ getSingleSuccessor? emptyBlk = none ∧
      getTerminator? emptyBlk = none) ∧
    (predEmpty emptyBlk = true ↔ emptyBlk.predList = []) ∧
    ((getSinglePredecessorEid emptyBlk).isSome ↔
      emptyBlk.predList.length = 1) :=
  ⟨(succ_pred_asymmetry emptyBlk).1 (by decide),
    (succ_pred_asymmetry emptyBlk).2.1, (succ_pred_asymmetry emptyBlk).2.2⟩

/-! ## C10: argument operations touch only the argument list -/

/-- C10: `addArgument`, `eraseArgument` and `dropAllArgs` leave the
instruction sequence, the predecessor-list head and the owning-function
back-reference untouched; `addArgument` appends at the end, keeping every
existing argument at its old index. -/
theorem arg_ops_frame (B : SILBasicBlock) (a i : Nat) :
    (addArgument B a).instList = B.instList ∧
    (addArgument B a).predList = B.predList ∧
    (addArgument B a).parent = B.parent ∧
    (addArgument B a).bbArgList = B.bbArgList ++ [a] ∧
    (∀ j : Nat, j < getNumBBArg B →
      getBBArg? (addArgument B a) j = getBBArg? B j) ∧
    (eraseArgument B i).instList = B.instList ∧
    (eraseArgument B i).predList = B.predList ∧
    (eraseArgument B i).parent = B.parent ∧
    (dropAllArgs B).instList = B.instList ∧
    (dropAllArgs B).predList = B.predList ∧
    (dropAllArgs B).parent = B.parent := by
  refine ⟨rfl, rfl, rfl, rfl, ?_, rfl, rfl, rfl, rfl, rfl, rfl⟩
  intro j hj
  show ((B.bbArgList ++ [a]).get? j) = B.bbArgList.get? j
  rw [List.get?_eq_getElem?, List.get?_eq_getElem?,
    List.getElem?_append_left hj]

/-- C10 witness: the frame conditions evaluated on `blk0`, adding argument
11 and erasing index 0. -/
theorem arg_ops_frame_witness :
    (addArgument blk0 11).instList = blk0.instList ∧
    (addArgument blk0 11).predList = blk0.predList ∧
    (addArgument blk0 11).parent = blk0.parent ∧
    (addArgument blk0 11).bbArgList = blk0.bbArgList ++ [11] ∧
    (∀ j : Nat, j < getNumBBArg blk0 →
      getBBArg? (addArgument blk0 11) j = getBBArg? blk0 j) ∧
    (eraseArgument blk0 0).instList = blk0.instList ∧
    (eraseArgument blk0 0).predList = blk0.predList ∧
    (eraseArgument blk0 0).parent = blk0.parent ∧
    (dropAllArgs blk0).instList = blk0.instList ∧
    (dropAllArgs blk0).predList = blk0.predList ∧
    (dropAllArgs blk0).parent = blk0.parent :=
  arg_ops_frame blk0 11 0

/-! ## C4: getSinglePredecessor / getSingleSuccessor -/

/-- `find?` over an appended list: if the property fails everywhere on the
prefix and holds at the head of the suffix, the search returns that head. -/
theorem find_append_first {α : Type} (p : α → Bool) (pre : List α) (P : α)
    (post : List α) (hpre : ∀ b ∈ pre, p b = false) (hP : p P = true) :
    (pre ++ P :: post).find? p = some P := by
  induction pre with
  | nil => simp [List.find?_cons, hP]
  | cons b bs ih =>
    have hb : p b = false := hpre b (by simp)
    rw [List.cons_append, List.find?_cons, hb]
    exact ih fun c hc => hpre c (by simp [hc])

/-- C4: `getSinglePredecessor()` selects an edge iff the predecessor list
has exactly one entry, and then dereferences it to the block owning that
edge — the unique predecessor; `getSingleSuccessor()` (on a block whose
terminator exists) returns the target of the unique successor edge when the
terminator's edge set is a singleton, and null otherwise. -/
theorem single_pred_succ_correct (f : SILFunction) (B : SILBasicBlock) :
    ((getSinglePredecessorEid B).isSome ↔ B.predList.length = 1) ∧
    (∀ x : Nat, B.predList = [x] →
      getSinglePredecessor f B = edgeOwner f x ∧
      ∀ pre P post, f.blocks = pre ++ P :: post →
        (∀ b ∈ pre, ownsEdge b x = false) → ownsEdge P x = true →
        getSinglePredecessor f B = some P.bid) ∧
    (∀ t : Inst, getTerminator? B = some t →
      (getSingleSuccessor? B = some none ↔ t.succEdges.length ≠ 1) ∧
      (∀ e : SILSuccessor, t.succEdges = [e] →
        getSingleSuccessor? B = some (some e.target))) := by
  refine ⟨?_, ?_, ?_⟩
  · unfold getSinglePredecessorEid
    cases h : B.predList with
    | nil => simp
    | cons x xs => cases xs <;> simp
  · intro x hx
    have hsel : getSinglePredecessorEid B = some x := by
      unfold getSinglePredecessorEid; rw [hx]; rfl
    constructor
    · simp [getSinglePredecessor, hsel]
    · intro pre P post hblocks hpre hP
      have howner : edgeOwner f x = some P.bid := by
        unfold edgeOwner
        rw [hblocks, find_append_first (fun b => ownsEdge b x) pre P post hpre hP]
        rfl
      simp [getSinglePredecessor, hsel, howner]
  · intro t ht
    have hs : getSuccs? B = some t.succEdges := by simp [getSuccs?, ht]
    constructor
    · unfold getSingleSuccessor?
      rw [hs]
      cases hse : t.succEdges with
      | nil => simp
      | cons e es => cases es <;> simp
    · intro e he
      unfold getSingleSuccessor?
      rw [hs, he]
      rfl

/-! ## C1: predecessor/successor duality under retargeting -/

/-- Membership in the function's flattened edge set. -/
theorem mem_cfgEdges (f : SILFunction) (e : SILSuccessor) :
    e ∈ cfgEdges f ↔ ∃ B ∈ f.blocks, ∃ i ∈ B.instList, e ∈ i.succEdges := by
  simp [cfgEdges, List.mem_flatMap]

/-- Retargeting never changes an edge's identity. -/
theorem retargetSucc_eid (x newT : Nat) (e : SILSuccessor) :
    (retargetSucc x newT e).eid = e.eid := by
  unfold retargetSucc; split <;> rfl

/-- Retargeting leaves every other edge untouched. -/
theorem retargetSucc_of_ne (x newT : Nat) (e : SILSuccessor)
    (h : e.eid ≠ x) : retargetSucc x newT e = e := by
  unfold retargetSucc
  simp [h]

/-- The function's edge set after a retarget is the pointwise image of the
old one: edges move nowhere, only edge `x`'s stored target changes. -/
theorem cfgEdges_retargetBlock (f : SILFunction) (x newT oldT : Nat) :
    cfgEdges ⟨f.blocks.map (retargetBlock x newT oldT)⟩ =
      (cfgEdges f).map (retargetSucc x newT) := by
  unfold cfgEdges retargetBlock
  rw [List.flatMap_map, List.map_flatMap]
  congr 1
  funext B
  rw [List.flatMap_map, List.map_flatMap]

/-- The duality restated as a pointwise iff over arbitrary edge ids. -/
theorem predDuality_iff (f : SILFunction) :
    predDuality f ↔ ∀ B ∈ f.blocks, ∀ x : Nat,
      (x ∈ B.predList ↔ ∃ e ∈ cfgEdges f, e.eid = x ∧ e.target = B.bid) := by
  constructor
  · intro h B hB x
    constructor
    · exact fun hx => (h B hB).1 x hx
    · rintro ⟨e, he, rfl, ht⟩
      exact (h B hB).2 e he ht
  · intro h B hB
    constructor
    · intro x hx
      exact (h B hB x).mp hx
    · intro e he ht
      exact (h B hB e.eid).mpr ⟨e, he, rfl, ht⟩

/-- With pairwise-distinct edge ids, an edge is determined by its id. -/
theorem eid_determines_edge (f : SILFunction) (hnodup : eidsNodup f)
    (e1 e2 : SILSuccessor) (h1 : e1 ∈ cfgEdges f) (h2 : e2 ∈ cfgEdges f)
    (he : e1.eid = e2.eid) : e1 = e2 := by
  have hn : (cfgEdges f).Nodup := List.Nodup.of_map _ hnodup
  exact (List.nodup_map_iff_inj_on hn).mp hnodup e1 h1 e2 h2 he

/-- Membership in a block's predecessor list after the retarget step. -/
theorem retargetBlock_predList_mem (x newT oldT y : Nat) (B : SILBasicBlock) :
    y ∈ (retargetBlock x newT oldT B).predList ↔
      (B.bid = newT ∧ y = x) ∨
        (y ∈ B.predList ∧ (B.bid = oldT → y ≠ x)) := by
  unfold retargetBlock
  simp only [List.mem_append]
  by_cases hn : B.bid = newT <;> by_cases ho : B.bid = oldT
  · subst hn; subst ho
    simp [List.mem_filter]
  · subst hn
    simp [ho, List.mem_filter]
  · subst ho
    simp [hn, List.mem_filter]
  · simp [hn, ho]

/-- C1: starting from a graph satisfying predecessor/successor duality
(with edge ids pairwise distinct), retargeting edge `x` to block `newT`
preserves the duality in one mutation step, and afterwards `x` lies in the
predecessor list of exactly the blocks named `newT` — it is gone from the
old target's list and present in the new target's, never in both or in
neither. -/
theorem retarget_duality (f : SILFunction) (x newT : Nat) (e : SILSuccessor)
    (hfind : findEdge f x = some e)
    (hdual : predDuality f) (hnodup : eidsNodup f) :
    predDuality (retargetEdge f x newT) ∧
    ∀ B ∈ (retargetEdge f x newT).blocks,
      (x ∈ B.predList ↔ B.bid = newT) := by
  have hmem : e ∈ cfgEdges f := List.mem_of_find?_eq_some hfind
  have heid : e.eid = x := by
    have h := List.find?_some hfind
    simpa using h
  have hre : retargetEdge f x newT =
      ⟨f.blocks.map (retargetBlock x newT e.target)⟩ := by
    unfold retargetEdge
    rw [hfind]
  have huniq : ∀ e2 ∈ cfgEdges f, e2.eid = x → e2 = e := fun e2 h2 hx =>
    eid_determines_edge f hnodup e2 e h2 hmem (by rw [hx, heid])
  have hdualI := (predDuality_iff f).mp hdual
  -- if x is in some block's old predecessor list, that block is e's target
  have hx_pred : ∀ B ∈ f.blocks, x ∈ B.predList → e.target = B.bid := by
    intro B hB hx
    obtain ⟨e2, he2, he2x, he2t⟩ := (hdualI B hB x).mp hx
    rw [← he2t, huniq e2 he2 he2x]
  constructor
  · -- duality is preserved
    rw [hre, predDuality_iff]
    intro Bp hBp y
    obtain ⟨B, hB, rfl⟩ := List.mem_map.mp hBp
    rw [retargetBlock_predList_mem]
    have hbid : (retargetBlock x newT e.target B).bid = B.bid := rfl
    rw [hbid, cfgEdges_retargetBlock]
    by_cases hyx : y = x
    · subst hyx
      constructor
      · rintro (⟨hBn, -⟩ | ⟨hyp, hne⟩)
        · exact ⟨retargetSucc y newT e,
            List.mem_map.mpr ⟨e, hmem, rfl⟩,
            by simp [retargetSucc, heid, hBn]⟩
        · exact absurd (hx_pred B hB hyp) fun h => hne h.symm rfl
      · rintro ⟨e2, he2, he2y, he2t⟩
        obtain ⟨e0, he0, rfl⟩ := List.mem_map.mp he2
        have he0y : e0.eid = y := by rw [← retargetSucc_eid y newT e0, he2y]
        have he0e : e0 = e := huniq e0 he0 he0y
        subst he0e
        left
        refine ⟨?_, rfl⟩
        rw [← he2t]
        simp [retargetSucc, heid]
    · constructor
      · rintro (⟨-, hyx2⟩ | ⟨hyp, -⟩)
        · exact absurd hyx2 hyx
        · obtain ⟨e2, he2, he2y, he2t⟩ := (hdualI B hB y).mp hyp
          refine ⟨retargetSucc x newT e2,
            List.mem_map.mpr ⟨e2, he2, rfl⟩, ?_, ?_⟩
          · rw [retargetSucc_eid, he2y]
          · rw [retargetSucc_of_ne x newT e2 (by rw [he2y]; exact hyx), he2t]
      · rintro ⟨e2, he2, he2y, he2t⟩
        obtain ⟨e0, he0, rfl⟩ := List.mem_map.mp he2
        have he0y : e0.eid = y := by rw [← retargetSucc_eid x newT e0, he2y]
        have he0ne : e0.eid ≠ x := by rw [he0y]; exact hyx
        rw [retargetSucc_of_ne x newT e0 he0ne] at he2t
        right
        refine ⟨(hdualI B hB y).mpr ⟨e0, he0, he0y, he2t⟩, fun _ => hyx⟩
  · -- after the retarget, x is in exactly the new target's list
    rw [hre]
    intro Bp hBp
    obtain ⟨B, hB, rfl⟩ := List.mem_map.mp hBp
    rw [retargetBlock_predList_mem]
    have hbid : (retargetBlock x newT e.target B).bid = B.bid := rfl
    rw [hbid]
    constructor
    · rintro (⟨hBn, -⟩ | ⟨hyp, hne⟩)
      · exact hBn
      · exact absurd (hx_pred B hB hyp) fun h => hne h.symm rfl
    · intro hBn
      exact Or.inl ⟨hBn, rfl⟩

/-- C1 witness: in the two-block function `blk0 → blk1` (edge 100),
retargeting edge 100 to block 0 preserves duality, and afterwards the edge
is in block 0's predecessor list and in no other. -/
theorem retarget_duality_witness :
    predDuality (retargetEdge fn01 100 0) ∧
    ∀ B ∈ (retargetEdge fn01 100 0).blocks,
      (100 ∈ B.predList ↔ B.bid = 0) :=
  retarget_duality fn01 100 0 ⟨100, 1⟩ (by decide) (by decide) (by decide)

/-! ## C2: splitBasicBlock -/

/-- A `flatMap` in which every element maps to its own singleton is the
identity. -/
theorem flatMap_singleton_of {α : Type} (l : List α) (g : α → List α)
    (h : ∀ b ∈ l, g b = [b]) : l.flatMap g = l := by
  induction l with
  | nil => rfl
  | cons a as ih =>
    rw [List.flatMap_cons, h a (by simp),
      ih fun b hb => h b (by simp [hb])]
    rfl

/-- Dropping at most everything up to the last element leaves the last
element in place. -/
theorem getLast_drop {α : Type} (l : List α) (p : Nat) (h : p < l.length) :
    (l.drop p).getLast? = l.getLast? := by
  induction l generalizing p with
  | nil => simp at h
  | cons a as ih =>
    cases p with
    | zero => rfl
    | succ m =>
      simp only [List.drop_succ_cons]
      rw [ih m (by simpa using h)]
      cases as with
      | nil => simp at h
      | cons b bs => simp [List.getLast?_cons_cons]

/-- In a well-formed block, every instruction of a strict prefix is a
non-terminator. -/
theorem take_no_terminator (B : SILBasicBlock) (p : Nat)
    (hwf : wellFormed B) (hp : p < B.instList.length) :
    ∀ i ∈ B.instList.take p, i.isTerm = false := by
  intro i hi
  apply hwf.2
  have h1 : (B.instList.dropLast).take p = B.instList.take p := by
    rw [List.dropLast_eq_take, List.take_take, min_eq_left (by omega)]
  rw [← h1] at hi
  exact List.take_subset _ _ hi

/-- After the split, the original block has no terminator: `getTerminator`
on it would hit its assertion. -/
theorem getTerminator_take_none (B : SILBasicBlock) (p : Nat)
    (hwf : wellFormed B) (hp : p < B.instList.length) :
    getTerminator? { B with instList := B.instList.take p } = none := by
  unfold getTerminator?
  cases h : (B.instList.take p).getLast? with
  | none => rfl
  | some i =>
    have hi : i ∈ B.instList.take p := List.mem_of_mem_getLast? h
    simp [take_no_terminator B p hwf hp i hi]

/-- C2: on a well-formed block at a valid position, `splitBasicBlock`
inserts the new block immediately after the original in the function's
block sequence, the original keeps exactly the instructions before the
position, the new block receives exactly the instructions from the
position through the end — the terminator included — no instruction is
duplicated or lost, and the original is left without a terminator. -/
theorem splitBasicBlock_spec (f : SILFunction)
    (pre post : List SILBasicBlock) (B : SILBasicBlock) (p nid : Nat)
    (hf : f.blocks = pre ++ B :: post)
    (huniq : ∀ b ∈ pre ++ post, b.bid ≠ B.bid)
    (hwf : wellFormed B) (hp : p < B.instList.length) :
    (splitBasicBlock f B.bid p nid).blocks =
      pre ++ (splitBlockAt B p nid).1 :: (splitBlockAt B p nid).2 :: post ∧
    (splitBlockAt B p nid).1.instList = B.instList.take p ∧
    (splitBlockAt B p nid).2.instList = B.instList.drop p ∧
    B.instList =
      (splitBlockAt B p nid).1.instList ++ (splitBlockAt B p nid).2.instList ∧
    getTerminator? (splitBlockAt B p nid).1 = none ∧
    (splitBlockAt B p nid).2.instList.getLast? = B.instList.getLast? := by
  refine ⟨?_, rfl, rfl, (List.take_append_drop p B.instList).symm,
    getTerminator_take_none B p hwf hp, getLast_drop B.instList p hp⟩
  unfold splitBasicBlock
  rw [hf, List.flatMap_append, List.flatMap_cons]
  rw [flatMap_singleton_of pre _
    (fun b hb => by rw [if_neg (huniq b (List.mem_append_left post hb))])]
  rw [flatMap_singleton_of post _
    (fun b hb => by
      rw [if_neg (huniq b (List.mem_append_right pre hb))])]
  rw [if_pos rfl]
  rfl

/-- C2 witness: splitting `blk0` (two constants, then a branch) at
position 2 leaves `[const, const]` behind, terminator-less, and moves
`[br]` into the new block 5, inserted between `blk0` and `blk1`. -/
theorem splitBasicBlock_spec_witness :
    (splitBasicBlock fn01 blk0.bid 2 5).blocks =
      [] ++ (splitBlockAt blk0 2 5).1 :: (splitBlockAt blk0 2 5).2 :: [blk1] ∧
    (splitBlockAt blk0 2 5).1.instList = blk0.instList.take 2 ∧
    (splitBlockAt blk0 2 5).2.instList = blk0.instList.drop 2 ∧
    blk0.instList =
      (splitBlockAt blk0 2 5).1.instList ++ (splitBlockAt blk0 2 5).2.instList ∧
    getTerminator? (splitBlockAt blk0 2 5).1 = none ∧
    (splitBlockAt blk0 2 5).2.instList.getLast? = blk0.instList.getLast? :=
  splitBasicBlock_spec fn01 [] [blk1] blk0 2 5 rfl (by decide) (by decide)
    (by decide)

/-! ## C3: splitBasicBlockAndBranch -/

/-- C3: on a well-formed block at a valid position, with a fresh edge id,
`splitBasicBlockAndBranch` performs the same split and appends an
unconditional branch: afterwards the original block is well-formed again
with the new block as its single successor, the new block's single
predecessor is the original block, every other block of the function —
in particular each target of the moved terminator — is untouched, its
predecessor list included, and the moved terminator is still the last
instruction of the new block, its successor-edge objects with it. -/
theorem splitBasicBlockAndBranch_spec (f : SILFunction)
    (pre post : List SILBasicBlock) (B : SILBasicBlock)
    (p nid biid neid : Nat)
    (hf : f.blocks = pre ++ B :: post)
    (huniq : ∀ b ∈ pre ++ post, b.bid ≠ B.bid)
    (hwf : wellFormed B) (hp : p < B.instList.length)
    (hfresh : ∀ b ∈ f.blocks, ownsEdge b neid = false) :
    ∃ B0 Bn : SILBasicBlock,
      (splitBasicBlockAndBranch f B.bid p nid biid neid).blocks =
        pre ++ B0 :: Bn :: post ∧
      B0.bid = B.bid ∧ Bn.bid = nid ∧
      B0.predList = B.predList ∧
      B0.instList = B.instList.take p ++ [⟨biid, true, [⟨neid, nid⟩]⟩] ∧
      Bn.instList = B.instList.drop p ∧
      wellFormed B0 ∧
      getSingleSuccessor? B0 = some (some nid) ∧
      Bn.predList = [neid] ∧
      getSinglePredecessor (splitBasicBlockAndBranch f B.bid p nid biid neid)
        Bn = some B.bid ∧
      Bn.instList.getLast? = B.instList.getLast? := by
  set br : Inst := ⟨biid, true, [⟨neid, nid⟩]⟩ with hbr
  set B0 : SILBasicBlock :=
    { B with instList := B.instList.take p ++ [br] } with hB0
  set Bn : SILBasicBlock :=
    { bid := nid, parent := B.parent, predList := [neid], bbArgList := [],
      instList := B.instList.drop p } with hBn
  have hblocks : (splitBasicBlockAndBranch f B.bid p nid biid neid).blocks =
      pre ++ B0 :: Bn :: post := by
    unfold splitBasicBlockAndBranch
    rw [hf, List.flatMap_append, List.flatMap_cons]
    rw [flatMap_singleton_of pre _
      (fun b hb => by rw [if_neg (huniq b (List.mem_append_left post hb))])]
    rw [flatMap_singleton_of post _
      (fun b hb => by
        rw [if_neg (huniq b (List.mem_append_right pre hb))])]
    rw [if_pos rfl]
    rfl
  refine ⟨B0, Bn, hblocks, rfl, rfl, rfl, rfl, rfl, ?_, ?_, rfl, ?_,
    getLast_drop B.instList p hp⟩
  · constructor
    · show (B.instList.take p ++ [br]).getLast?.map Inst.isTerm = some true
      rw [List.getLast?_concat]
      rfl
    · intro i hi
      rw [hB0] at hi
      simp only [List.dropLast_concat] at hi
      exact take_no_terminator B p hwf hp i hi
  · have ht : getTerminator? B0 = some br := by
      unfold getTerminator?
      show (match (B.instList.take p ++ [br]).getLast? with
        | none => none
        | some i => if i.isTerm then some i else none) = some br
      rw [List.getLast?_concat]
      rfl
    simp [getSingleSuccessor?, getSuccs?, ht, hbr]
  · have hown : ownsEdge B0 neid = true := by
      unfold ownsEdge
      rw [hB0]
      simp [List.any_append, hbr]
    have hpre : ∀ b ∈ pre, ownsEdge b neid = false := fun b hb =>
      hfresh b (by rw [hf]; exact List.mem_append_left _ hb)
    have howner :
        edgeOwner (splitBasicBlockAndBranch f B.bid p nid biid neid) neid =
          some B0.bid := by
      unfold edgeOwner
      rw [hblocks,
        find_append_first (fun b => ownsEdge b neid) pre B0 (Bn :: post)
          hpre hown]
      rfl
    show (getSinglePredecessorEid Bn).bind
      (edgeOwner (splitBasicBlockAndBranch f B.bid p nid biid neid)) =
        some B.bid
    have hsel : getSinglePredecessorEid Bn = some neid := rfl
    rw [hsel]
    show edgeOwner (splitBasicBlockAndBranch f B.bid p nid biid neid) neid =
      some B.bid
    rw [howner]

/-- C3 witness: splitting `blk0` at position 2 with a branch (instruction
20, edge 200): block 0 ends in `br` to the new block 5, block 5 holds the
old `br blk1` with edge 100 still in `blk1`'s untouched predecessor list. -/
theorem splitBasicBlockAndBranch_spec_witness :
    ∃ B0 Bn : SILBasicBlock,
      (splitBasicBlockAndBranch fn01 blk0.bid 2 5 20 200).blocks =
        [] ++ B0 :: Bn :: [blk1] ∧
      B0.bid = blk0.bid ∧ Bn.bid = 5 ∧
      B0.predList = blk0.predList ∧
      B0.instList = blk0.instList.take 2 ++ [⟨20, true, [⟨200, 5⟩]⟩] ∧
      Bn.instList = blk0.instList.drop 2 ∧
      wellFormed B0 ∧
      getSingleSuccessor? B0 = some (some 5) ∧
      Bn.predList = [200] ∧
      getSinglePredecessor (splitBasicBlockAndBranch fn01 blk0.bid 2 5 20 200)
        Bn = some blk0.bid ∧
      Bn.instList.getLast? = blk0.instList.getLast? :=
  splitBasicBlockAndBranch_spec fn01 [] [blk1] blk0 2 5 20 200 rfl
    (by decide) (by decide) (by decide) (by decide)

/-- C4 witness: in `fn01`, `blk1`'s unique inbound edge is edge 100, owned
by `blk0`, so its single predecessor is block 0; `blk0`'s terminator has the
one edge to block 1, so its single successor is block 1. -/
theorem single_pred_succ_correct_witness :
    getSinglePredecessor fn01 blk1 = some blk0.bid ∧
    getSingleSuccessor? blk0 = some (some 1) :=
  ⟨((single_pred_succ_correct fn01 blk1).2.1 100 (by decide)).2 [] blk0 [blk1]
      (by decide) (by decide) (by decide),
    by
      have h := (single_pred_succ_correct fn01 blk0).2.2 brInst (by decide)
      exact h.2 ⟨100, 1⟩ (by decide)⟩

end SIL
